import Mathlib

/-!
Verification of the tree-addressing and emission logic of the bazel
benchmark-workspace generator (`src/main.rs`).

The generator lays out a perfect n-ary tree of packages.  The addressing
component (`ID::new`, `ID::children`, `num_nodes_in_ntree`) is embedded here
as pure functions on `Nat`; the emission component (`handle_root`,
`handle_node`, `write_objc_files`) is embedded as pure data describing the
files each call writes (file name paired with structured content), with the
final on-disk state obtained by replaying the writes in order
(last-write-wins).

Machine integers (`u64`) are modelled as `Nat`.  Rust's `u64` subtraction
panics on underflow (debug) where `Nat` truncates to `0`; the single place
where this matters (`package_relative_index - 1` evaluated on the root in
`ID::children`) is treated explicitly by the safety analysis at the end of
the file, which states the underflow condition itself.
-/

namespace GenBazel

/-- Function `num_nodes_in_ntree` from `src/main.rs`: closed-form node count
`(k^(h+1) - 1) / (k - 1)` of a perfect `k`-ary tree of height `h`. -/
def num_nodes_in_ntree (targets_per_level : Nat) (height : Nat) : Nat :=
  (targets_per_level ^ (height + 1) - 1) / (targets_per_level - 1)

/-- The geometric sum `1 + k + k^2 + ... + k^(n-1)` (the spec's stated value
of the node count; used to compare the closed form against the spec). -/
def geomSum (k n : Nat) : Nat := ∑ i in Finset.range n, k ^ i

/-- Rust `u64` division panics when the divisor is zero; `none` models the
panic. -/
def checked_div (a b : Nat) : Option Nat := if b = 0 then none else some (a / b)

/-- Variant of `num_nodes_in_ntree` with the fallible division made explicit: the
divisor is `targets_per_level - 1`, which is zero when
`targets_per_level = 1` (and when it is `0`, via truncated subtraction). -/
def num_nodes_in_ntree_checked (targets_per_level : Nat) (height : Nat) : Option Nat :=
  checked_div (targets_per_level ^ (height + 1) - 1) (targets_per_level - 1)

/-- Variant of `num_nodes_in_ntree` under wrap-around `u64` semantics: the only
operation that can overflow for `k ≥ 2` is `k.pow(h+1)`, so the result of
the power is reduced mod `2^64`. -/
def num_nodes_in_ntree_u64 (targets_per_level : Nat) (height : Nat) : Nat :=
  (targets_per_level ^ (height + 1) % 2 ^ 64 - 1) / (targets_per_level - 1)

/-- Function `main` computes the node count directly from the (unvalidated)
command-line arguments: there is no guard on `targets_per_level`. -/
def main_num_nodes (targets_per_level : Nat) (height : Nat) : Option Nat :=
  num_nodes_in_ntree_checked targets_per_level height

/-- The node indices the driver enumerates: `stream::iter(0..num_nodes)`. -/
def driver_node_indices (targets_per_level : Nat) (height : Nat) : List Nat :=
  List.range (num_nodes_in_ntree targets_per_level height)

/-- Fuel-driven worker for the ancestor-id walk of `ID::new`: starting from
`id`, repeatedly step to `(current - 1) / k` and record each value, stopping
once `0` is recorded.  `fuel ≥ id` always suffices since the step strictly
decreases. -/
def chainGo (k : Nat) : Nat → Nat → List Nat
  | _, 0 => []
  | 0, _ + 1 => []
  | fuel + 1, i + 1 => i / k :: chainGo k fuel (i / k)

/-- The list of ancestor indices pushed by the loop in `ID::new`, nearest
parent first: `[(id-1)/k, ((id-1)/k - 1)/k, ..., 0]` for `id ≠ 0`, `[]` for
the root. -/
def chainIds (k id : Nat) : List Nat := chainGo k id id

/-- Field `package_relative_index` as computed by `ID::new`:
`1 + id - num_nodes_in_ntree(k, parents.len() - 1)` for `id > 0`, else `0`. -/
def prIndex (k id : Nat) : Nat :=
  if id = 0 then 0 else 1 + id - num_nodes_in_ntree k ((chainIds k id).length - 1)

/-- The `ID` struct of `src/main.rs` (a node address): global index, the
ancestor chain as full `ID` values, the 1-based rank within the package, and
the two configuration scalars carried alongside. -/
inductive ID where
  | mk (id : Nat) (parents : List ID) (package_relative_index : Nat)
      (targets_per_level : Nat) (max_depth : Nat)

def ID.id : ID → Nat
  | .mk i _ _ _ _ => i

def ID.parents : ID → List ID
  | .mk _ p _ _ _ => p

def ID.package_relative_index : ID → Nat
  | .mk _ _ r _ _ => r

def ID.targets_per_level : ID → Nat
  | .mk _ _ _ t _ => t

def ID.max_depth : ID → Nat
  | .mk _ _ _ _ m => m

/-- Builds the `parents` vector of `ID::new` from the ancestor-id chain.
Each ancestor's own `parents` is the remainder of the chain, which is
faithful because the ancestor chain of `(id-1)/k` is exactly the tail of the
ancestor chain of `id` (proved as `mkParents_eq_map_new` below). -/
def mkParents (k d : Nat) : List Nat → List ID
  | [] => []
  | p :: rest => .mk p (mkParents k d rest) (prIndex k p) k d :: mkParents k d rest

/-- Constructor `ID::new(id, targets_per_level, max_depth)` from `src/main.rs`. -/
def ID.new (k d id : Nat) : ID :=
  .mk id (mkParents k d (chainIds k id)) (prIndex k id) k d

/-- Method `ID::children` from `src/main.rs`: empty when
`parents.len() >= max_depth`; otherwise, for `i in 0..targets_per_level`, a
child with index `id * targets_per_level + i`, ancestor chain
`parents ++ [self]`, and rank
`targets_per_level * (package_relative_index - 1) + i + 1`.
(`package_relative_index - 1` is a `u64` subtraction in Rust; `Nat`
truncation stands in for the underflowing case, which is analysed
separately.) -/
def ID.children (n : ID) : List ID :=
  if n.max_depth ≤ n.parents.length then []
  else
    (List.range n.targets_per_level).map fun i =>
      .mk (n.id * n.targets_per_level + i) (n.parents ++ [n])
        (n.targets_per_level * (n.package_relative_index - 1) + i + 1)
        n.targets_per_level n.max_depth

/-- Method `ID::package_path`: `pkg_1/pkg_2/.../pkg_d` with one segment per
ancestor-chain entry (`d = parents.len()`); empty for the root. -/
def ID.package_path (n : ID) : String :=
  String.join (((List.range n.parents.length).map fun i =>
    "pkg_" ++ toString (i + 1)).intersperse "/")

/-- Method `ID::lib_path`: `package_path` joined with `lib_<package_relative_index>`
(`PathBuf::join` on the empty root package path yields just the final
segment). -/
def ID.lib_path (n : ID) : String :=
  if n.parents.length = 0 then "lib_" ++ toString n.package_relative_index
  else n.package_path ++ "/" ++ ("lib_" ++ toString n.package_relative_index)

/-- Method `ID::lib_name`: `Pkg1_Pkg2_..._Pkgd_Lib<package_relative_index>`. -/
def ID.lib_name (n : ID) : String :=
  String.join (((List.range n.parents.length).map fun i =>
    "Pkg" ++ toString (i + 1)).intersperse "_")
  ++ "_Lib" ++ toString n.package_relative_index

/-- Structured content of a generated build-description file.  The literal
bazel syntax is boundary text; what the rule declares is kept: the rule
kind, the target name, the module name (absent for the application target),
the source list and the dependency list, each dependency recorded as the
`//`-prefixed library path exactly as formatted by the source. -/
structure BuildFile where
  rule : String
  targetName : String
  moduleName : Option String
  srcs : List String
  deps : List String
deriving DecidableEq

/-- Content of one generated file: either a build description or plain text
lines. -/
inductive FileContent where
  | build (b : BuildFile)
  | text (lines : List String)
deriving DecidableEq

/-- The `ios_application` declaration `handle_root` writes: deps
`"//pkg_1/lib_1", ..., "//pkg_1/lib_k"` (from
`(1..=targets_per_level).map(|i| format!("//pkg_1/lib_{}", i))`), srcs
`["main.m"]`. -/
def root_build (targets_per_level : Nat) : BuildFile :=
  { rule := "ios_application"
    targetName := "root"
    moduleName := none
    srcs := ["main.m"]
    deps := (List.range targets_per_level).map fun i =>
      "//pkg_1/lib_" ++ toString (i + 1) }

/-- Function `handle_root` from `src/main.rs`: writes the root `BUILD.bazel` and
nothing else (no stub files). -/
def handle_root (targets_per_level : Nat) : List (String × FileContent) :=
  [("BUILD.bazel", .build (root_build targets_per_level))]

/-- Header stub contents as written by `write_objc_files`, parameterised by
the decimal string of the file number so that contents are a function of the
file name: `@import Foundation;`, one `@import` per child library, then the
`@interface ... : NSObject` / `@end` pair. -/
def hdr_lines_s (n : ID) (s : String) : List String :=
  ("@import Foundation;" :: n.children.map fun c => "@import " ++ c.lib_name ++ ";")
  ++ ["@interface " ++ n.lib_name ++ "_Hdr" ++ s ++ "_Class : NSObject", "@end"]

/-- Implementation stub contents as written by `write_objc_files`: includes
the paired header and gives an empty `@implementation` of the class the
header declares. -/
def src_lines_s (n : ID) (s : String) : List String :=
  ["#include \"" ++ n.lib_name ++ "/" ++ n.lib_name ++ "_Hdr" ++ s ++ ".h\"",
   "@implementation " ++ n.lib_name ++ "_Hdr" ++ s ++ "_Class",
   "@end"]

def hdr_lines (n : ID) (i : Nat) : List String := hdr_lines_s n (toString i)

def src_lines (n : ID) (i : Nat) : List String := src_lines_s n (toString i)

/-- Header stub file name `<lib_name>_Hdr<i>.h`. -/
def hdr_name (n : ID) (i : Nat) : String :=
  n.lib_name ++ "_Hdr" ++ (toString i ++ ".h")

/-- Implementation stub file name `<lib_name>_Src<i>.m`. -/
def src_name (n : ID) (i : Nat) : String :=
  n.lib_name ++ "_Src" ++ (toString i ++ ".m")

/-- Function `write_objc_files` from `src/main.rs`: for `i in 1..=files_per_target`,
writes the header stub then the implementation stub for file number `i`
(into the node's library directory). -/
def write_objc_files (n : ID) (files_per_target : Nat) : List (String × FileContent) :=
  (List.range files_per_target).flatMap fun j =>
    [(hdr_name n (j + 1), .text (hdr_lines_s n (toString (j + 1)))),
     (src_name n (j + 1), .text (src_lines_s n (toString (j + 1))))]

/-- The `apple_framework` declaration `handle_node` writes: target
`lib_<package_relative_index>`, module `lib_name`, `srcs` exactly the
`2 * files_per_target` stub names, `deps` exactly the children's
`//`-prefixed library paths. -/
def node_build (n : ID) (files_per_target : Nat) : BuildFile :=
  { rule := "apple_framework"
    targetName := "lib_" ++ toString n.package_relative_index
    moduleName := some n.lib_name
    srcs := (List.range files_per_target).flatMap fun i =>
      [hdr_name n (i + 1), src_name n (i + 1)]
    deps := n.children.map fun c => "//" ++ c.lib_path }

/-- Function `handle_node` from `src/main.rs`: writes the node's `BUILD.bazel`, then
runs `write_objc_files` once per `i in 1..=files_per_target` (the loop
counter is unused, so the full stub set is rewritten `files_per_target`
times). -/
def handle_node (n : ID) (files_per_target : Nat) : List (String × FileContent) :=
  ("BUILD.bazel", .build (node_build n files_per_target))
  :: (List.range files_per_target).flatMap fun _ => write_objc_files n files_per_target

/-- Dispatcher `emit_build_file` from `src/main.rs`: node `0` goes to `handle_root`,
every other index is addressed with `ID::new` and goes to `handle_node`. -/
def emit_build_file (node_id targets_per_level files_per_target max_depth : Nat) :
    List (String × FileContent) :=
  if node_id = 0 then handle_root targets_per_level
  else handle_node (ID.new targets_per_level max_depth node_id) files_per_target

/-- Replays a write list in order with last-write-wins file semantics: the
final content of `name` is the content of the last write to `name`. -/
def applyWrites (ws : List (String × FileContent)) (name : String) : Option FileContent :=
  (ws.reverse.find? fun w => w.1 = name).map Prod.snd

@[simp]
theorem ID.id_mk (i : Nat) (p : List ID) (r t m : Nat) : (ID.mk i p r t m).id = i := rfl

@[simp]
theorem ID.parents_mk (i : Nat) (p : List ID) (r t m : Nat) :
    (ID.mk i p r t m).parents = p := rfl

@[simp]
theorem ID.package_relative_index_mk (i : Nat) (p : List ID) (r t m : Nat) :
    (ID.mk i p r t m).package_relative_index = r := rfl

@[simp]
theorem ID.targets_per_level_mk (i : Nat) (p : List ID) (r t m : Nat) :
    (ID.mk i p r t m).targets_per_level = t := rfl

@[simp]
theorem ID.max_depth_mk (i : Nat) (p : List ID) (r t m : Nat) :
    (ID.mk i p r t m).max_depth = m := rfl

@[simp]
theorem ID.new_id (k d id : Nat) : (ID.new k d id).id = id := rfl

@[simp]
theorem ID.new_parents (k d id : Nat) :
    (ID.new k d id).parents = mkParents k d (chainIds k id) := rfl

@[simp]
theorem ID.new_package_relative_index (k d id : Nat) :
    (ID.new k d id).package_relative_index = prIndex k id := rfl

@[simp]
theorem ID.new_targets_per_level (k d id : Nat) : (ID.new k d id).targets_per_level = k := rfl

@[simp]
theorem ID.new_max_depth (k d id : Nat) : (ID.new k d id).max_depth = d := rfl

theorem chainGo_zero (k f : Nat) : chainGo k f 0 = [] := by
  cases f <;> rfl

theorem chainGo_stable (k : Nat) :
    ∀ id f1 f2, id ≤ f1 → id ≤ f2 → chainGo k f1 id = chainGo k f2 id := by
  intro id
  induction id using Nat.strong_induction_on with
  | _ id ih =>
    intro f1 f2 h1 h2
    rcases id with _ | i
    · rw [chainGo_zero, chainGo_zero]
    · obtain ⟨a, rfl⟩ : ∃ a, f1 = a + 1 := ⟨f1 - 1, by omega⟩
      obtain ⟨b, rfl⟩ : ∃ b, f2 = b + 1 := ⟨f2 - 1, by omega⟩
      show i / k :: chainGo k a (i / k) = i / k :: chainGo k b (i / k)
      have hd : i / k < i + 1 := Nat.lt_succ_of_le (Nat.div_le_self i k)
      have ha : i / k ≤ a := le_trans (Nat.div_le_self i k) (Nat.le_of_succ_le_succ h1)
      have hb : i / k ≤ b := le_trans (Nat.div_le_self i k) (Nat.le_of_succ_le_succ h2)
      rw [ih (i / k) hd a b ha hb]

@[simp]
theorem chainIds_zero (k : Nat) : chainIds k 0 = [] := rfl

theorem chainIds_succ (k id : Nat) (h : 0 < id) :
    chainIds k id = (id - 1) / k :: chainIds k ((id - 1) / k) := by
  obtain ⟨i, rfl⟩ : ∃ i, id = i + 1 := ⟨id - 1, by omega⟩
  show chainGo k (i + 1) (i + 1) = (i + 1 - 1) / k :: chainGo k ((i + 1 - 1) / k) ((i + 1 - 1) / k)
  simp only [Nat.add_sub_cancel]
  show i / k :: chainGo k i (i / k) = i / k :: chainGo k (i / k) (i / k)
  rw [chainGo_stable k (i / k) i (i / k) (Nat.div_le_self i k) (le_refl _)]

theorem mkParents_length (k d : Nat) (l : List Nat) : (mkParents k d l).length = l.length := by
  induction l with
  | nil => rfl
  | cons p rest ih => simp [mkParents, ih]

theorem mkParents_map_id (k d : Nat) (l : List Nat) : (mkParents k d l).map ID.id = l := by
  induction l with
  | nil => rfl
  | cons p rest ih => simp [mkParents, ih]

/-- Faithfulness of `mkParents`: building the parents vector along the
ancestor chain agrees with recursively re-addressing each ancestor, exactly
as the recursive call `ID::new(parent_id, ...)` in the source does. -/
theorem mkParents_eq_map_new (k d : Nat) :
    ∀ id, mkParents k d (chainIds k id) = (chainIds k id).map fun p => ID.new k d p := by
  intro id
  induction id using Nat.strong_induction_on with
  | _ id ih =>
    rcases Nat.eq_zero_or_pos id with rfl | hpos
    · rfl
    · have hstep := chainIds_succ k id hpos
      have hlt : (id - 1) / k < id := lt_of_le_of_lt (Nat.div_le_self _ k) (by omega)
      rw [hstep]
      simp only [mkParents, List.map_cons]
      rw [ih ((id - 1) / k) hlt]
      congr 1
      show ID.mk _ _ _ _ _ = ID.new k d _
      unfold ID.new
      rw [ih ((id - 1) / k) hlt]
      rfl

@[simp]
theorem geomSum_zero (k : Nat) : geomSum k 0 = 0 := rfl

theorem geomSum_succ (k n : Nat) : geomSum k (n + 1) = k * geomSum k n + 1 := by
  unfold geomSum
  rw [Finset.sum_range_succ' (fun i => k ^ i) n]
  simp [pow_succ, Finset.mul_sum, Nat.mul_comm]

theorem geomSum_one (k : Nat) : geomSum k 1 = 1 := by
  rw [geomSum_succ]; simp

theorem geomSum_lt_succ (k n : Nat) (hk : 1 ≤ k) : geomSum k n < geomSum k (n + 1) := by
  have hpow : 1 ≤ k ^ n := Nat.one_le_pow n k hk
  unfold geomSum
  rw [Finset.sum_range_succ]
  omega

theorem geomSum_mono (k : Nat) (hk : 1 ≤ k) {a b : Nat} (h : a ≤ b) :
    geomSum k a ≤ geomSum k b :=
  (strictMono_nat_of_lt_succ fun n => geomSum_lt_succ k n hk).monotone h

theorem pred_mul_geomSum (k : Nat) (hk : 1 ≤ k) (n : Nat) :
    (k - 1) * geomSum k n = k ^ n - 1 := by
  induction n with
  | zero => simp
  | succ n ih =>
    have hpow : 1 ≤ k ^ n := Nat.one_le_pow n k hk
    have hstep : k ^ (n + 1) = k * k ^ n := by ring
    rw [geomSum_succ, Nat.mul_add, Nat.mul_one, Nat.mul_left_comm, ih,
      Nat.mul_sub k (k ^ n) 1, Nat.mul_one, ← hstep]
    have hle : k ≤ k ^ (n + 1) := by
      calc k = k * 1 := by ring
      _ ≤ k * k ^ n := Nat.mul_le_mul_left k hpow
      _ = k ^ (n + 1) := hstep.symm
    have hle2 : k ^ n ≤ k ^ (n + 1) := Nat.pow_le_pow_right (by omega) (by omega)
    omega

theorem num_nodes_eq_geomSum (k : Nat) (hk : 2 ≤ k) (h : Nat) :
    num_nodes_in_ntree k h = geomSum k (h + 1) := by
  unfold num_nodes_in_ntree
  rw [← pred_mul_geomSum k (by omega) (h + 1)]
  exact Nat.mul_div_cancel_left _ (by omega)

/-- Every index sits between the cumulative node counts of its own depth and
the next depth, where depth is the length of the ancestor chain walked by
`ID::new`. -/
theorem chain_sandwich (k : Nat) (hk : 1 ≤ k) :
    ∀ id, geomSum k (chainIds k id).length ≤ id ∧
      id < geomSum k ((chainIds k id).length + 1) := by
  intro id
  induction id using Nat.strong_induction_on with
  | _ id ih =>
    rcases Nat.eq_zero_or_pos id with rfl | hpos
    · simp [geomSum_one]
    · have hstep := chainIds_succ k id hpos
      have hlt : (id - 1) / k < id := lt_of_le_of_lt (Nat.div_le_self _ k) (by omega)
      obtain ⟨h1, h2⟩ := ih ((id - 1) / k) hlt
      have hlen : (chainIds k id).length = (chainIds k ((id - 1) / k)).length + 1 := by
        rw [hstep]; rfl
      rw [hlen]
      have hdm := Nat.div_add_mod (id - 1) k
      have hmlt : (id - 1) % k < k := Nat.mod_lt _ (by omega)
      constructor
      · rw [geomSum_succ]
        have hmm : k * geomSum k (chainIds k ((id - 1) / k)).length ≤ k * ((id - 1) / k) :=
          Nat.mul_le_mul_left k h1
        omega
      · rw [geomSum_succ]
        have hmm : k * ((id - 1) / k + 1) ≤
            k * geomSum k ((chainIds k ((id - 1) / k)).length + 1) :=
          Nat.mul_le_mul_left k h2
        have hdist : k * ((id - 1) / k + 1) = k * ((id - 1) / k) + k := by ring
        omega

/-- Depths are read off uniquely from the geometric-sum ranges. -/
theorem depth_unique (k : Nat) (hk : 1 ≤ k) {a b j : Nat}
    (ha1 : geomSum k a ≤ j) (ha2 : j < geomSum k (a + 1))
    (hb1 : geomSum k b ≤ j) (hb2 : j < geomSum k (b + 1)) : a = b := by
  rcases Nat.lt_trichotomy a b with h | h | h
  · have : geomSum k (a + 1) ≤ geomSum k b := geomSum_mono k hk (by omega)
    omega
  · exact h
  · have : geomSum k (b + 1) ≤ geomSum k a := geomSum_mono k hk (by omega)
    omega

theorem depth_eq_iff (k : Nat) (hk : 1 ≤ k) (j L : Nat) :
    (chainIds k j).length = L ↔ geomSum k L ≤ j ∧ j < geomSum k (L + 1) := by
  obtain ⟨h1, h2⟩ := chain_sandwich k hk j
  constructor
  · rintro rfl
    exact ⟨h1, h2⟩
  · rintro ⟨hb1, hb2⟩
    exact depth_unique k hk h1 h2 hb1 hb2

theorem chainIds_length_pos (k id : Nat) (hid : 1 ≤ id) : 1 ≤ (chainIds k id).length := by
  rw [chainIds_succ k id hid]
  simp

theorem prIndex_eq (k id : Nat) (hk : 2 ≤ k) (hid : 1 ≤ id) :
    prIndex k id = 1 + id - geomSum k (chainIds k id).length := by
  unfold prIndex
  rw [if_neg (by omega)]
  have hL : 1 ≤ (chainIds k id).length := chainIds_length_pos k id hid
  have harg : (chainIds k id).length - 1 + 1 = (chainIds k id).length := by omega
  rw [num_nodes_eq_geomSum k hk, harg]

theorem prIndex_pos (k id : Nat) (hk : 2 ≤ k) (hid : 1 ≤ id) : 1 ≤ prIndex k id := by
  rw [prIndex_eq k id hk hid]
  have h1 := (chain_sandwich k (by omega) id).1
  omega

theorem chainIds_mem_lt (k : Nat) : ∀ id, ∀ p ∈ chainIds k id, p < id := by
  intro id
  induction id using Nat.strong_induction_on with
  | _ id ih =>
    rcases Nat.eq_zero_or_pos id with rfl | hpos
    · simp
    · rw [chainIds_succ k id hpos]
      have hlt : (id - 1) / k < id := lt_of_le_of_lt (Nat.div_le_self _ k) (by omega)
      intro p hp
      rcases List.mem_cons.mp hp with rfl | hp2
      · exact hlt
      · exact lt_trans (ih ((id - 1) / k) hlt p hp2) hlt

theorem chainIds_chain_parent (k : Nat) :
    ∀ id, List.Chain' (fun a b => b = (a - 1) / k) (id :: chainIds k id) := by
  intro id
  induction id using Nat.strong_induction_on with
  | _ id ih =>
    rcases Nat.eq_zero_or_pos id with rfl | hpos
    · simp
    · rw [chainIds_succ k id hpos]
      have hlt : (id - 1) / k < id := lt_of_le_of_lt (Nat.div_le_self _ k) (by omega)
      exact List.Chain'.cons rfl (ih ((id - 1) / k) hlt)

theorem chainIds_chain_gt (k : Nat) :
    ∀ id, List.Chain' (fun a b => b < a) (id :: chainIds k id) := by
  intro id
  induction id using Nat.strong_induction_on with
  | _ id ih =>
    rcases Nat.eq_zero_or_pos id with rfl | hpos
    · simp
    · rw [chainIds_succ k id hpos]
      have hlt : (id - 1) / k < id := lt_of_le_of_lt (Nat.div_le_self _ k) (by omega)
      exact List.Chain'.cons hlt (ih ((id - 1) / k) hlt)

theorem chainIds_getLast_zero (k : Nat) :
    ∀ id, 1 ≤ id → (chainIds k id).getLast? = some 0 := by
  intro id
  induction id using Nat.strong_induction_on with
  | _ id ih =>
    intro hid
    rw [chainIds_succ k id hid]
    rcases Nat.eq_zero_or_pos ((id - 1) / k) with hz | hpos
    · rw [hz]
      rfl
    · have hlt : (id - 1) / k < id := lt_of_le_of_lt (Nat.div_le_self _ k) (by omega)
      rw [chainIds_succ k ((id - 1) / k) hpos, List.getLast?_cons_cons,
        ← chainIds_succ k ((id - 1) / k) hpos]
      exact ih ((id - 1) / k) hlt hpos

theorem length_filter_range_le (a : Nat) :
    ∀ n, ((List.range n).filter fun j => a ≤ j).length = n - a := by
  intro n
  induction n with
  | zero => simp
  | succ n ih =>
    rw [List.range_succ, List.filter_append, List.length_append, ih]
    by_cases h : a ≤ n
    · simp [h]
      omega
    · simp [h]
      omega

/-- C2 counterexample: at `k = 2`, `maxDepth = 1`, the ancestor list of node
`1` is `[0]`: the root (index `0`) IS contained in the ancestor list, contrary
to the claim. -/
theorem root_in_ancestors_counterexample :
    (ID.new 2 1 1).parents.map ID.id = [0] ∧ 0 ∈ (ID.new 2 1 1).parents.map ID.id := by
  constructor
  · rfl
  · rw [show (ID.new 2 1 1).parents.map ID.id = [0] from rfl]
    simp

/-- C2 (amended): for every non-root index (with `k ≥ 2`), the ancestor
chain computed by `ID::new` is ordered nearest-parent-first (each entry is
the integer-division parent of the one before it), its first element's index
is `(index - 1) / k`, its length equals the node's tree depth (characterised
by the geometric-sum index ranges), and the root IS contained in the chain as
its final entry (the loop pushes `parent_id == 0` before breaking). -/
theorem ancestors_chain_shape (k d id : Nat) (hk : 2 ≤ k) (hid : 1 ≤ id) :
    ((ID.new k d id).parents.map ID.id).head? = some ((id - 1) / k)
    ∧ (ID.new k d id).parents.map ID.id = chainIds k id
    ∧ List.Chain' (fun a b => b = (a - 1) / k) (id :: (ID.new k d id).parents.map ID.id)
    ∧ ((ID.new k d id).parents.map ID.id).getLast? = some 0
    ∧ geomSum k (ID.new k d id).parents.length ≤ id
    ∧ id < geomSum k ((ID.new k d id).parents.length + 1) := by
  have hmap : (ID.new k d id).parents.map ID.id = chainIds k id := by
    rw [ID.new_parents, mkParents_map_id]
  have hlen : (ID.new k d id).parents.length = (chainIds k id).length := by
    rw [ID.new_parents, mkParents_length]
  refine ⟨?_, hmap, ?_, ?_, ?_, ?_⟩
  · rw [hmap, chainIds_succ k id hid]
    rfl
  · rw [hmap]
    exact chainIds_chain_parent k id
  · rw [hmap]
    exact chainIds_getLast_zero k id hid
  · rw [hlen]
    exact (chain_sandwich k (by omega) id).1
  · rw [hlen]
    exact (chain_sandwich k (by omega) id).2

theorem ancestors_chain_shape_witness :
    2 ≤ 2 ∧ 1 ≤ 5 ∧
    (((ID.new 2 3 5).parents.map ID.id).head? = some ((5 - 1) / 2)
    ∧ (ID.new 2 3 5).parents.map ID.id = chainIds 2 5
    ∧ List.Chain' (fun a b => b = (a - 1) / 2) (5 :: (ID.new 2 3 5).parents.map ID.id)
    ∧ ((ID.new 2 3 5).parents.map ID.id).getLast? = some 0
    ∧ geomSum 2 (ID.new 2 3 5).parents.length ≤ 5
    ∧ 5 < geomSum 2 ((ID.new 2 3 5).parents.length + 1)) :=
  ⟨by omega, by omega, ancestors_chain_shape 2 3 5 (by omega) (by omega)⟩

/-- C3: for a non-root node (`k ≥ 2`), `package_relative_index` equals
`1 + index - num_nodes_in_ntree(k, depth - 1)` where depth is the ancestor
count; the root gets `0`; and the value is exactly the node's 1-based rank,
in index order, among all nodes sharing its depth. -/
theorem position_in_level_formula (k d id : Nat) (hk : 2 ≤ k) (hid : 1 ≤ id) :
    (ID.new k d id).package_relative_index
      = 1 + id - num_nodes_in_ntree k ((ID.new k d id).parents.length - 1)
    ∧ (ID.new k d 0).package_relative_index = 0
    ∧ (ID.new k d id).package_relative_index
      = ((List.range (id + 1)).filter
          fun j => (ID.new k d j).parents.length = (ID.new k d id).parents.length).length := by
  have hlen : ∀ j, (ID.new k d j).parents.length = (chainIds k j).length := by
    intro j
    rw [ID.new_parents, mkParents_length]
  refine ⟨?_, rfl, ?_⟩
  · show prIndex k id = _
    unfold prIndex
    rw [if_neg (by omega), hlen]
  · show prIndex k id = _
    have hL : 1 ≤ (chainIds k id).length := chainIds_length_pos k id hid
    obtain ⟨hs1, hs2⟩ := chain_sandwich k (by omega : 1 ≤ k) id
    have hcongr : ((List.range (id + 1)).filter
          fun j => (ID.new k d j).parents.length = (ID.new k d id).parents.length)
        = (List.range (id + 1)).filter fun j => geomSum k (chainIds k id).length ≤ j := by
      apply List.filter_congr
      intro j hj
      have hjle : j < id + 1 := List.mem_range.mp hj
      simp only [hlen, decide_eq_decide]
      rw [depth_eq_iff k (by omega) j (chainIds k id).length]
      constructor
      · rintro ⟨h1, _⟩
        exact h1
      · intro h1
        exact ⟨h1, lt_of_lt_of_le (by omega : j < id + 1) (by omega : id + 1 ≤ geomSum k ((chainIds k id).length + 1))⟩
    rw [hcongr, length_filter_range_le, prIndex_eq k id hk hid]
    omega

theorem position_in_level_formula_witness :
    2 ≤ 3 ∧ 1 ≤ 7 ∧
    ((ID.new 3 2 7).package_relative_index
      = 1 + 7 - num_nodes_in_ntree 3 ((ID.new 3 2 7).parents.length - 1)
    ∧ (ID.new 3 2 0).package_relative_index = 0
    ∧ (ID.new 3 2 7).package_relative_index
      = ((List.range (7 + 1)).filter
          fun j => (ID.new 3 2 j).parents.length = (ID.new 3 2 7).parents.length).length) :=
  ⟨by omega, by omega, position_in_level_formula 3 2 7 (by omega) (by omega)⟩

/-- C4: for `k ≥ 2` the closed form `(k^(d+1) - 1) / (k - 1)` equals the
geometric sum `1 + k + ... + k^d`; under the no-overflow hypothesis the
wrap-around `u64` evaluation agrees with the exact one; and the value bounds
the node indices the driver enumerates. -/
theorem node_count_closed_form (k d : Nat) (hk : 2 ≤ k) (hof : k ^ (d + 1) < 2 ^ 64) :
    num_nodes_in_ntree k d = geomSum k (d + 1)
    ∧ num_nodes_in_ntree_u64 k d = num_nodes_in_ntree k d
    ∧ ∀ i ∈ driver_node_indices k d, i < num_nodes_in_ntree k d := by
  refine ⟨num_nodes_eq_geomSum k hk d, ?_, ?_⟩
  · unfold num_nodes_in_ntree_u64 num_nodes_in_ntree
    rw [Nat.mod_eq_of_lt hof]
  · intro i hi
    exact List.mem_range.mp hi

theorem node_count_closed_form_witness :
    2 ≤ 2 ∧ 2 ^ (3 + 1) < 2 ^ 64 ∧
    (num_nodes_in_ntree 2 3 = geomSum 2 (3 + 1)
    ∧ num_nodes_in_ntree_u64 2 3 = num_nodes_in_ntree 2 3
    ∧ ∀ i ∈ driver_node_indices 2 3, i < num_nodes_in_ntree 2 3) :=
  ⟨by omega, by decide, node_count_closed_form 2 3 (by omega) (by decide)⟩

/-- C8: for `k ≥ 2` and any index in the valid range, the ancestor walk of
`ID::new` terminates: one parent step `(id - 1) / k` strictly decreases, every
recursive `ID::new` invocation along the chain is on a strictly smaller
index, the recorded chain is strictly decreasing, and it ends at the root
index `0`. -/
theorem addressing_terminates (k d id : Nat) (hk : 2 ≤ k) (hid : 1 ≤ id)
    (hrange : id ≤ num_nodes_in_ntree k d) :
    (id - 1) / k < id
    ∧ (∀ p ∈ chainIds k id, p < id)
    ∧ List.Chain' (fun a b => b < a) (id :: (ID.new k d id).parents.map ID.id)
    ∧ (id :: (ID.new k d id).parents.map ID.id).getLast? = some 0 := by
  have hmap : (ID.new k d id).parents.map ID.id = chainIds k id := by
    rw [ID.new_parents, mkParents_map_id]
  refine ⟨lt_of_le_of_lt (Nat.div_le_self _ k) (by omega), chainIds_mem_lt k id, ?_, ?_⟩
  · rw [hmap]
    exact chainIds_chain_gt k id
  · rw [hmap, List.getLast?_cons, chainIds_succ k id hid]
    rw [← chainIds_succ k id hid, chainIds_getLast_zero k id hid]
    rfl

theorem addressing_terminates_witness :
    2 ≤ 2 ∧ 1 ≤ 3 ∧ 3 ≤ num_nodes_in_ntree 2 1 ∧
    ((3 - 1) / 2 < 3
    ∧ (∀ p ∈ chainIds 2 3, p < 3)
    ∧ List.Chain' (fun a b => b < a) (3 :: (ID.new 2 1 3).parents.map ID.id)
    ∧ (3 :: (ID.new 2 1 3).parents.map ID.id).getLast? = some 0) :=
  ⟨by omega, by omega, by decide, addressing_terminates 2 1 3 (by omega) (by omega) (by decide)⟩

/-- C9: with `k ≥ 2` the divisor `k - 1` of `num_nodes_in_ntree` is nonzero
and the checked evaluation succeeds with the exact value; `main` applies no
validation to the branching factor, so at `k = 1` the division-by-zero branch
is reached. -/
theorem branching_factor_precondition (k h : Nat) (hk : 2 ≤ k) :
    num_nodes_in_ntree_checked k h = some (num_nodes_in_ntree k h)
    ∧ main_num_nodes 1 h = none := by
  constructor
  · unfold num_nodes_in_ntree_checked checked_div num_nodes_in_ntree
    rw [if_neg (by omega)]
  · unfold main_num_nodes num_nodes_in_ntree_checked checked_div
    simp

theorem branching_factor_precondition_witness :
    2 ≤ 2 ∧
    (num_nodes_in_ntree_checked 2 4 = some (num_nodes_in_ntree 2 4)
    ∧ main_num_nodes 1 4 = none) :=
  ⟨by omega, branching_factor_precondition 2 4 (by omega)⟩

/-- C10: `ID::children` is only safe off the root.  The root's
`package_relative_index` is `0`, so the child-rank computation
`k * (package_relative_index - 1) + i + 1` starts from an underflowing
`u64` subtraction (`package_relative_index < 1` states the underflow
condition), and the stored child-index formula `id * k + i` would list the
root itself (`0 * k + 0 = 0`) as its own first child.  The program never
evaluates `children` on the root: `emit_build_file` routes index `0` to
`handle_root`.  Every non-root address has `package_relative_index ≥ 1`, so
there the subtraction cannot underflow. -/
theorem root_children_unsafe_nonroot_safe (k d id f : Nat) (hk : 2 ≤ k) (hid : 1 ≤ id) :
    (ID.new k d 0).package_relative_index = 0
    ∧ (ID.new k d 0).package_relative_index < 1
    ∧ (ID.new k d 0).id * k + 0 = (ID.new k d 0).id
    ∧ 1 ≤ (ID.new k d id).package_relative_index
    ∧ emit_build_file 0 k f d = handle_root k := by
  refine ⟨rfl, by norm_num [ID.new_package_relative_index, prIndex], ?_, ?_, ?_⟩
  · rw [ID.new_id]
    omega
  · rw [ID.new_package_relative_index]
    exact prIndex_pos k id hk hid
  · unfold emit_build_file
    rw [if_pos rfl]

theorem root_children_unsafe_nonroot_safe_witness :
    2 ≤ 2 ∧ 1 ≤ 1 ∧
    ((ID.new 2 1 0).package_relative_index = 0
    ∧ (ID.new 2 1 0).package_relative_index < 1
    ∧ (ID.new 2 1 0).id * 2 + 0 = (ID.new 2 1 0).id
    ∧ 1 ≤ (ID.new 2 1 1).package_relative_index
    ∧ emit_build_file 0 2 3 1 = handle_root 2) :=
  ⟨by omega, by omega, root_children_unsafe_nonroot_safe 2 1 1 3 (by omega) (by omega)⟩

theorem string_append_assoc (a b c : String) : a ++ b ++ c = a ++ (b ++ c) := by
  apply String.ext
  simp [String.data_append]

/-- Derived `lib_path` depends only on the ancestor count and the package-relative
index. -/
theorem lib_path_eq_of (n m : ID) (hlen : n.parents.length = m.parents.length)
    (hpr : n.package_relative_index = m.package_relative_index) :
    n.lib_path = m.lib_path := by
  unfold ID.lib_path ID.package_path
  rw [hlen, hpr]

/-- Derived `lib_name` depends only on the ancestor count and the package-relative
index. -/
theorem lib_name_eq_of (n m : ID) (hlen : n.parents.length = m.parents.length)
    (hpr : n.package_relative_index = m.package_relative_index) :
    n.lib_name = m.lib_name := by
  unfold ID.lib_name
  rw [hlen, hpr]

/-- Re-addressing the successor `id * k + i + 1` of the child index stored by
`ID::children` lands one depth level below `id` and carries exactly the
package-relative index that `ID::children` declares for slot `i`. -/
theorem child_index_shift (k id i : Nat) (hk : 2 ≤ k) (hid : 1 ≤ id) (hi : i < k) :
    (chainIds k (id * k + i + 1)).length = (chainIds k id).length + 1
    ∧ prIndex k (id * k + i + 1) = k * (prIndex k id - 1) + i + 1 := by
  obtain ⟨hs1, hs2⟩ := chain_sandwich k (by omega : 1 ≤ k) id
  have hsucc1 : geomSum k ((chainIds k id).length + 1)
      = k * geomSum k (chainIds k id).length + 1 := geomSum_succ ..
  have hsucc2 : geomSum k ((chainIds k id).length + 1 + 1)
      = k * geomSum k ((chainIds k id).length + 1) + 1 := geomSum_succ ..
  have hmul1 : geomSum k (chainIds k id).length * k ≤ id * k :=
    Nat.mul_le_mul_right k hs1
  have hmul2 : id * k ≤ (geomSum k ((chainIds k id).length + 1) - 1) * k :=
    Nat.mul_le_mul_right k (by omega)
  have hdist : (geomSum k ((chainIds k id).length + 1) - 1) * k
      = geomSum k ((chainIds k id).length + 1) * k - 1 * k :=
    Nat.mul_sub_right_distrib ..
  have hcomm1 : k * geomSum k (chainIds k id).length
      = geomSum k (chainIds k id).length * k := Nat.mul_comm ..
  have hcomm2 : k * geomSum k ((chainIds k id).length + 1)
      = geomSum k ((chainIds k id).length + 1) * k := Nat.mul_comm ..
  have hone : 1 ≤ geomSum k ((chainIds k id).length + 1) := by omega
  have hklek : k * 1 ≤ k * geomSum k ((chainIds k id).length + 1) :=
    Nat.mul_le_mul_left k hone
  have hdep : (chainIds k (id * k + i + 1)).length = (chainIds k id).length + 1 := by
    rw [depth_eq_iff k (by omega) (id * k + i + 1) ((chainIds k id).length + 1)]
    constructor
    · omega
    · rw [hsucc2]
      omega
  refine ⟨hdep, ?_⟩
  rw [prIndex_eq k (id * k + i + 1) hk (by omega), hdep, hsucc1,
    prIndex_eq k id hk hid]
  have hprm1 : 1 + id - geomSum k (chainIds k id).length - 1
      = id - geomSum k (chainIds k id).length := by omega
  rw [hprm1, Nat.mul_sub k id (geomSum k (chainIds k id).length)]
  have hcomm3 : k * id = id * k := Nat.mul_comm ..
  have hmul3 : k * geomSum k (chainIds k id).length ≤ k * id :=
    Nat.mul_le_mul_left k hs1
  omega

/-- Depth-1 nodes: for `1 ≤ j + 1 ≤ k`, `ID::new` addresses index `j + 1`
to package `pkg_1`, library `lib_<j+1>`. -/
theorem depth_one_lib_path (k d j : Nat) (hk : 2 ≤ k) (hj : j < k) :
    (ID.new k d (j + 1)).lib_path = "pkg_1/lib_" ++ toString (j + 1)
    ∧ (ID.new k d (j + 1)).parents.length = 1
    ∧ (ID.new k d (j + 1)).package_relative_index = j + 1 := by
  have hchain : chainIds k (j + 1) = [0] := by
    rw [chainIds_succ k (j + 1) (by omega)]
    simp [Nat.div_eq_of_lt hj]
  have hlen : (ID.new k d (j + 1)).parents.length = 1 := by
    rw [ID.new_parents, mkParents_length, hchain]
    rfl
  have hnn0 : num_nodes_in_ntree k 0 = 1 := by
    unfold num_nodes_in_ntree
    rw [pow_one]
    exact Nat.div_self (by omega)
  have hpr : (ID.new k d (j + 1)).package_relative_index = j + 1 := by
    rw [ID.new_package_relative_index]
    unfold prIndex
    rw [if_neg (by omega), hchain]
    simp [hnn0]
  refine ⟨?_, hlen, hpr⟩
  unfold ID.lib_path
  rw [if_neg (by omega), hpr]
  have hpkg : (ID.new k d (j + 1)).package_path = "pkg_1" := by
    unfold ID.package_path
    rw [hlen]
    rfl
  rw [hpkg, string_append_assoc]
  apply String.ext
  simp [String.data_append]

/-- C1 counterexample: at `k = 2`, `maxDepth = 2`, node `1`, child slot `0`:
`ID::children` stores child index `2` and declares library path
`pkg_1/pkg_2/lib_1` (rank `1`), but re-addressing index `2` with `ID::new`
yields library path `pkg_1/lib_2` with rank `2`, so the declared dependency
path and the path resolved from the stored child index disagree. -/
theorem child_declaration_counterexample :
    ((ID.new 2 2 1).children.map ID.id)[0]? = some 2
    ∧ ((ID.new 2 2 1).children.map ID.lib_path)[0]? = some "pkg_1/pkg_2/lib_1"
    ∧ (ID.new 2 2 2).lib_path = "pkg_1/lib_2"
    ∧ (ID.new 2 2 2).package_relative_index = 2
    ∧ 2 * ((ID.new 2 2 1).package_relative_index - 1) + 0 + 1 = 1 := by
  refine ⟨rfl, rfl, rfl, rfl, rfl⟩

/-- C1 (amended): the library path `ID::children` declares for slot `i` of a
non-root, non-leaf node `n` is the library path `ID::new` assigns to index
`n.id * k + i + 1` — one more than the stored child index `n.id * k + i` —
and the declared rank `k * (n.package_relative_index - 1) + i + 1` is exactly
the rank `ID::new` computes at that successor index. -/
theorem child_declaration_resolves_at_successor (k d id i : Nat) (hk : 2 ≤ k)
    (hid : 1 ≤ id) (hi : i < k) (hleaf : (ID.new k d id).parents.length < d) :
    ((ID.new k d id).children.map ID.lib_path)[i]?
      = some ((ID.new k d (id * k + i + 1)).lib_path)
    ∧ (ID.new k d (id * k + i + 1)).package_relative_index
      = k * ((ID.new k d id).package_relative_index - 1) + i + 1
    ∧ ((ID.new k d id).children.map ID.id)[i]? = some (id * k + i) := by
  obtain ⟨hdep, hpr⟩ := child_index_shift k id i hk hid hi
  have hch : (ID.new k d id).children
      = (List.range k).map fun j =>
        ID.mk (id * k + j) ((ID.new k d id).parents ++ [ID.new k d id])
          (k * (prIndex k id - 1) + j + 1) k d := by
    unfold ID.children
    rw [if_neg (by rw [ID.new_max_depth]; omega :
      ¬ (ID.new k d id).max_depth ≤ (ID.new k d id).parents.length)]
    simp
  have hpr2 : (ID.new k d (id * k + i + 1)).package_relative_index
      = k * ((ID.new k d id).package_relative_index - 1) + i + 1 := by
    rw [ID.new_package_relative_index, ID.new_package_relative_index, hpr]
  refine ⟨?_, hpr2, ?_⟩
  · rw [hch]
    rw [List.map_map]
    rw [List.getElem?_map, List.getElem?_range hi]
    show some _ = some _
    congr 1
    apply lib_path_eq_of
    · show ((ID.new k d id).parents ++ [ID.new k d id]).length
        = (ID.new k d (id * k + i + 1)).parents.length
      simp only [List.length_append, List.length_singleton, ID.new_parents,
        mkParents_length, hdep]
    · show k * (prIndex k id - 1) + i + 1
        = (ID.new k d (id * k + i + 1)).package_relative_index
      rw [ID.new_package_relative_index, hpr]
  · rw [hch, List.map_map, List.getElem?_map, List.getElem?_range hi]
    rfl

theorem map_range_const {α : Type} (c : α) (k : Nat) :
    (List.range k).map (fun _ => c) = List.replicate k c := by
  induction k with
  | zero => rfl
  | succ k ih => rw [List.range_succ, List.map_append, ih, List.replicate_succ']; rfl

/-- C5: for every node in the valid index range (`k ≥ 2`), `ID::children` is
empty exactly when the ancestor count has reached `maxDepth`; below
`maxDepth` it returns exactly `k` children, each carrying the node's own
ancestor chain with the node itself appended. -/
theorem children_shape (k d id : Nat) (hk : 2 ≤ k)
    (hrange : id < num_nodes_in_ntree k d) :
    ((ID.new k d id).children = [] ↔ (ID.new k d id).parents.length = d)
    ∧ ((ID.new k d id).parents.length < d →
        (ID.new k d id).children.length = k
        ∧ (ID.new k d id).children.map ID.parents
          = List.replicate k ((ID.new k d id).parents ++ [ID.new k d id])) := by
  have hlen : (ID.new k d id).parents.length = (chainIds k id).length := by
    rw [ID.new_parents, mkParents_length]
  obtain ⟨hs1, hs2⟩ := chain_sandwich k (by omega : 1 ≤ k) id
  have hnn : num_nodes_in_ntree k d = geomSum k (d + 1) := num_nodes_eq_geomSum k hk d
  have hdle : (chainIds k id).length ≤ d := by
    by_contra hgt
    have hmono : geomSum k (d + 1) ≤ geomSum k (chainIds k id).length :=
      geomSum_mono k (by omega) (by omega)
    omega
  constructor
  · constructor
    · intro hemp
      by_contra hne
      have hlt : (ID.new k d id).parents.length < d := by omega
      unfold ID.children at hemp
      rw [if_neg (by rw [ID.new_max_depth]; omega :
        ¬ (ID.new k d id).max_depth ≤ (ID.new k d id).parents.length)] at hemp
      have hrn : List.range k = [] := List.map_eq_nil_iff.mp hemp
      have hk0 : k = 0 := List.range_eq_nil.mp hrn
      omega
    · intro heq
      unfold ID.children
      rw [if_pos (by rw [ID.new_max_depth]; omega :
        (ID.new k d id).max_depth ≤ (ID.new k d id).parents.length)]
  · intro hlt
    unfold ID.children
    rw [if_neg (by rw [ID.new_max_depth]; omega :
      ¬ (ID.new k d id).max_depth ≤ (ID.new k d id).parents.length)]
    constructor
    · rw [List.length_map, List.length_range]
      rfl
    · rw [List.map_map]
      show (List.range (ID.new k d id).targets_per_level).map
        (fun i => (ID.new k d id).parents ++ [ID.new k d id]) = _
      rw [show (ID.new k d id).targets_per_level = k from rfl]
      exact map_range_const _ k

theorem children_shape_witness :
    2 ≤ 2 ∧ 5 < num_nodes_in_ntree 2 2 ∧
    (((ID.new 2 2 5).children = [] ↔ (ID.new 2 2 5).parents.length = 2)
    ∧ ((ID.new 2 2 5).parents.length < 2 →
        (ID.new 2 2 5).children.length = 2
        ∧ (ID.new 2 2 5).children.map ID.parents
          = List.replicate 2 ((ID.new 2 2 5).parents ++ [ID.new 2 2 5]))) :=
  ⟨by omega, by decide, children_shape 2 2 5 (by omega) (by decide)⟩

/-- C6: the root build description declares an application target whose
dependency list is exactly the depth-1 nodes' library paths
`//pkg_1/lib_1 .. //pkg_1/lib_k` in rank order, with no stub files written;
concretely at `k = 2` the deps are `["//pkg_1/lib_1", "//pkg_1/lib_2"]`. -/
theorem root_emission (k d : Nat) (hk : 2 ≤ k) :
    handle_root k = [("BUILD.bazel", .build (root_build k))]
    ∧ (root_build k).rule = "ios_application"
    ∧ (root_build k).srcs = ["main.m"]
    ∧ (root_build k).deps
        = (List.range k).map (fun j => "//" ++ (ID.new k d (j + 1)).lib_path)
    ∧ (root_build 2).deps = ["//pkg_1/lib_1", "//pkg_1/lib_2"] := by
  refine ⟨rfl, rfl, rfl, ?_, by decide⟩
  show (List.range k).map (fun i => "//pkg_1/lib_" ++ toString (i + 1)) = _
  apply List.map_congr_left
  intro j hj
  have hjk : j < k := List.mem_range.mp hj
  obtain ⟨hpath, _, _⟩ := depth_one_lib_path k d j hk hjk
  rw [hpath, ← string_append_assoc]
  have hlit : "//" ++ "pkg_1/lib_" = "//pkg_1/lib_" := by decide
  rw [hlit]

theorem root_emission_witness :
    2 ≤ 2 ∧
    (handle_root 2 = [("BUILD.bazel", .build (root_build 2))]
    ∧ (root_build 2).rule = "ios_application"
    ∧ (root_build 2).srcs = ["main.m"]
    ∧ (root_build 2).deps
        = (List.range 2).map (fun j => "//" ++ (ID.new 2 1 (j + 1)).lib_path)
    ∧ (root_build 2).deps = ["//pkg_1/lib_1", "//pkg_1/lib_2"]) :=
  ⟨by omega, root_emission 2 1 (by omega)⟩

theorem string_append_cancel_left (a b c : String) (h : a ++ b = a ++ c) : b = c := by
  apply String.ext
  have hd := congrArg String.data h
  rw [String.data_append, String.data_append] at hd
  exact List.append_cancel_left hd

theorem string_append_cancel_right (a b c : String) (h : a ++ c = b ++ c) : a = b := by
  apply String.ext
  have hd := congrArg String.data h
  rw [String.data_append, String.data_append] at hd
  exact List.append_cancel_right hd

theorem string_last_append (a s : String) (c : Char) (h : s.data.getLast? = some c) :
    (a ++ s).data.getLast? = some c := by
  rw [String.data_append, List.getLast?_append, h]
  rfl

theorem ne_of_last {s t : String} {cs ct : Char} (hs : s.data.getLast? = some cs)
    (ht : t.data.getLast? = some ct) (hne : cs ≠ ct) : s ≠ t := by
  intro h
  rw [h, ht] at hs
  exact hne (Option.some.inj hs).symm

theorem hdr_name_last (n : ID) (i : Nat) : (hdr_name n i).data.getLast? = some 'h' := by
  unfold hdr_name
  apply string_last_append
  apply string_last_append
  decide

theorem src_name_last (n : ID) (i : Nat) : (src_name n i).data.getLast? = some 'm' := by
  unfold src_name
  apply string_last_append
  apply string_last_append
  decide

theorem applyWrites_eq_of_mem (ws : List (String × FileContent))
    (hdet : ∀ w1 ∈ ws, ∀ w2 ∈ ws, w1.1 = w2.1 → w1.2 = w2.2)
    {name : String} {c : FileContent} (hmem : (name, c) ∈ ws) :
    applyWrites ws name = some c := by
  unfold applyWrites
  have hsome : (ws.reverse.find? fun w => w.1 = name).isSome := by
    rw [List.find?_isSome]
    exact ⟨(name, c), List.mem_reverse.mpr hmem, by simp⟩
  obtain ⟨w, hw⟩ : ∃ w, (ws.reverse.find? fun w => w.1 = name) = some w := by
    cases hfind : ws.reverse.find? fun w => w.1 = name
    · rw [hfind] at hsome
      simp at hsome
    · exact ⟨_, rfl⟩
  rw [hw]
  have hwmem : w ∈ ws := List.mem_reverse.mp (List.mem_of_find?_eq_some hw)
  have hwname : w.1 = name := by
    have := List.find?_some hw
    simpa using this
  have hcontent : w.2 = c := hdet w hwmem (name, c) hmem (by simpa using hwname)
  rw [Option.map_some']
  rw [hcontent]

theorem applyWrites_isSome_iff (ws : List (String × FileContent)) (name : String) :
    (applyWrites ws name).isSome ↔ name ∈ ws.map Prod.fst := by
  unfold applyWrites
  constructor
  · intro h
    obtain ⟨w, hw⟩ : ∃ w, (ws.reverse.find? fun w => w.1 = name) = some w := by
      cases hfind : ws.reverse.find? fun w => w.1 = name
      · rw [hfind] at h
        simp at h
      · exact ⟨_, rfl⟩
    have hwmem : w ∈ ws := List.mem_reverse.mp (List.mem_of_find?_eq_some hw)
    have hwname : w.1 = name := by
      have := List.find?_some hw
      simpa using this
    exact List.mem_map.mpr ⟨w, hwmem, hwname⟩
  · intro h
    obtain ⟨w, hwmem, hwname⟩ := List.mem_map.mp h
    have hsome : (ws.reverse.find? fun w => w.1 = name).isSome := by
      rw [List.find?_isSome]
      exact ⟨w, List.mem_reverse.mpr hwmem, by simp [hwname]⟩
    cases hfind : ws.reverse.find? fun w => w.1 = name
    · rw [hfind] at hsome
      simp at hsome
    · simp

/-- Every write performed by `handle_node` is the build description, a
header stub, or an implementation stub, with content determined by the
decimal string in the file name. -/
theorem handle_node_shapes (n : ID) (f : Nat) :
    ∀ w ∈ handle_node n f,
      w = ("BUILD.bazel", FileContent.build (node_build n f))
      ∨ (∃ s, w = (n.lib_name ++ "_Hdr" ++ (s ++ ".h"), FileContent.text (hdr_lines_s n s)))
      ∨ (∃ s, w = (n.lib_name ++ "_Src" ++ (s ++ ".m"), FileContent.text (src_lines_s n s))) := by
  intro w hw
  unfold handle_node at hw
  rcases List.mem_cons.mp hw with rfl | hstub
  · left
    rfl
  · obtain ⟨_, _, hwW⟩ := List.mem_flatMap.mp hstub
    unfold write_objc_files at hwW
    obtain ⟨j2, _, hpair⟩ := List.mem_flatMap.mp hwW
    rcases List.mem_cons.mp hpair with rfl | htl
    · right
      left
      exact ⟨toString (j2 + 1), rfl⟩
    · rcases List.mem_cons.mp htl with rfl | habs

      · right
        right
        exact ⟨toString (j2 + 1), rfl⟩
      · simp at habs

/-- Distinct writes of `handle_node` to the same file name carry the same
content (the name's trailing extension separates the three shapes, and the
embedded decimal string pins the content within a shape). -/
theorem handle_node_det (n : ID) (f : Nat) :
    ∀ w1 ∈ handle_node n f, ∀ w2 ∈ handle_node n f, w1.1 = w2.1 → w1.2 = w2.2 := by
  have hbuild : ("BUILD.bazel" : String).data.getLast? = some 'l' := by decide
  have hlasth : ∀ s : String, (n.lib_name ++ "_Hdr" ++ (s ++ ".h")).data.getLast? = some 'h' := by
    intro s
    apply string_last_append
    apply string_last_append
    decide
  have hlastm : ∀ s : String, (n.lib_name ++ "_Src" ++ (s ++ ".m")).data.getLast? = some 'm' := by
    intro s
    apply string_last_append
    apply string_last_append
    decide
  intro w1 h1 w2 h2 heq
  rcases handle_node_shapes n f w1 h1 with rfl | ⟨s1, rfl⟩ | ⟨s1, rfl⟩ <;>
    rcases handle_node_shapes n f w2 h2 with rfl | ⟨s2, rfl⟩ | ⟨s2, rfl⟩ <;>
    simp only at heq ⊢
  · exact absurd heq (ne_of_last hbuild (hlasth s2) (by decide))
  · exact absurd heq (ne_of_last hbuild (hlastm s2) (by decide))
  · exact absurd heq (ne_of_last (hlasth s1) hbuild (by decide))
  · have hs : s1 = s2 :=
      string_append_cancel_right _ _ _ (string_append_cancel_left _ _ _ heq)
    rw [hs]
  · exact absurd heq (ne_of_last (hlasth s1) (hlastm s2) (by decide))
  · exact absurd heq (ne_of_last (hlastm s1) hbuild (by decide))
  · exact absurd heq (ne_of_last (hlastm s1) (hlasth s2) (by decide))
  · have hs : s1 = s2 :=
      string_append_cancel_right _ _ _ (string_append_cancel_left _ _ _ heq)
    rw [hs]

theorem mem_write_objc_hdr (n : ID) (f j : Nat) (hj : j < f) :
    (hdr_name n (j + 1), FileContent.text (hdr_lines_s n (toString (j + 1))))
      ∈ write_objc_files n f := by
  unfold write_objc_files
  rw [List.mem_flatMap]
  exact ⟨j, List.mem_range.mpr hj, by simp⟩

theorem mem_write_objc_src (n : ID) (f j : Nat) (hj : j < f) :
    (src_name n (j + 1), FileContent.text (src_lines_s n (toString (j + 1))))
      ∈ write_objc_files n f := by
  unfold write_objc_files
  rw [List.mem_flatMap]
  exact ⟨j, List.mem_range.mpr hj, by simp⟩

theorem mem_handle_node_of_mem_writes (n : ID) (f : Nat) (hf : 1 ≤ f)
    {w : String × FileContent} (hw : w ∈ write_objc_files n f) : w ∈ handle_node n f := by
  unfold handle_node
  apply List.mem_cons_of_mem
  rw [List.mem_flatMap]
  exact ⟨0, List.mem_range.mpr (by omega), hw⟩

theorem handle_node_names (n : ID) (f : Nat) (hf : 1 ≤ f) (name : String) :
    name ∈ (handle_node n f).map Prod.fst
      ↔ name = "BUILD.bazel"
        ∨ ∃ j2, j2 < f ∧ (name = hdr_name n (j2 + 1) ∨ name = src_name n (j2 + 1)) := by
  unfold handle_node write_objc_files
  simp only [List.map_cons, List.mem_cons, List.map_flatMap, List.mem_flatMap,
    List.mem_range, List.map_map, List.map_nil, List.not_mem_nil, or_false]
  constructor
  · rintro (rfl | ⟨a, ha, j2, hj2, hcase⟩)
    · left
      rfl
    · right
      exact ⟨j2, hj2, hcase⟩
  · rintro (rfl | ⟨j2, hj2, hcase⟩)
    · left
      rfl
    · right
      exact ⟨0, by omega, j2, hj2, hcase⟩

/-- C7: the build description `handle_node` writes declares as `deps`
exactly the children's `//`-prefixed library paths, and as `srcs` exactly
the names of the stub files subsequently written; after all
`files_per_target` (redundant, overwriting) rounds of `write_objc_files`,
the final on-disk state maps each header name to the header stub (the
`Foundation` import plus one import per child plus the interface
declaration), each implementation name to the stub that includes its paired
header and emptily implements the declared class, and holds no file other
than the build description and the `files_per_target` stub pairs. -/
theorem node_emission_content (k d id f j : Nat) (hk : 2 ≤ k) (hid : 1 ≤ id)
    (hf : 1 ≤ f) (hj : j < f) :
    (node_build (ID.new k d id) f).deps
      = (ID.new k d id).children.map (fun c => "//" ++ c.lib_path)
    ∧ (node_build (ID.new k d id) f).srcs
      = (write_objc_files (ID.new k d id) f).map Prod.fst
    ∧ applyWrites (handle_node (ID.new k d id) f) (hdr_name (ID.new k d id) (j + 1))
      = some (.text (hdr_lines (ID.new k d id) (j + 1)))
    ∧ applyWrites (handle_node (ID.new k d id) f) (src_name (ID.new k d id) (j + 1))
      = some (.text (src_lines (ID.new k d id) (j + 1)))
    ∧ hdr_lines (ID.new k d id) (j + 1)
      = ("@import Foundation;"
          :: (ID.new k d id).children.map (fun c => "@import " ++ c.lib_name ++ ";"))
        ++ ["@interface " ++ (ID.new k d id).lib_name ++ "_Hdr" ++ toString (j + 1)
              ++ "_Class : NSObject",
            "@end"]
    ∧ src_lines (ID.new k d id) (j + 1)
      = ["#include \"" ++ (ID.new k d id).lib_name ++ "/" ++ (ID.new k d id).lib_name
            ++ "_Hdr" ++ toString (j + 1) ++ ".h\"",
         "@implementation " ++ (ID.new k d id).lib_name ++ "_Hdr" ++ toString (j + 1)
            ++ "_Class",
         "@end"]
    ∧ (∀ name, (applyWrites (handle_node (ID.new k d id) f) name).isSome
        ↔ name = "BUILD.bazel"
          ∨ ∃ j2, j2 < f ∧ (name = hdr_name (ID.new k d id) (j2 + 1)
              ∨ name = src_name (ID.new k d id) (j2 + 1))) := by
  refine ⟨rfl, ?_, ?_, ?_, rfl, rfl, ?_⟩
  · show (List.range f).flatMap
        (fun i => [hdr_name (ID.new k d id) (i + 1), src_name (ID.new k d id) (i + 1)]) = _
    unfold write_objc_files
    rw [List.map_flatMap]
    rfl
  · exact applyWrites_eq_of_mem _ (handle_node_det (ID.new k d id) f)
      (mem_handle_node_of_mem_writes (ID.new k d id) f hf
        (mem_write_objc_hdr (ID.new k d id) f j hj))
  · exact applyWrites_eq_of_mem _ (handle_node_det (ID.new k d id) f)
      (mem_handle_node_of_mem_writes (ID.new k d id) f hf
        (mem_write_objc_src (ID.new k d id) f j hj))
  · intro name
    rw [applyWrites_isSome_iff]
    exact handle_node_names (ID.new k d id) f hf name

theorem node_emission_content_witness :
    2 ≤ 2 ∧ 1 ≤ 1 ∧ 1 ≤ 2 ∧ 1 < 2 ∧
    ((node_build (ID.new 2 2 1) 2).deps
      = (ID.new 2 2 1).children.map (fun c => "//" ++ c.lib_path)
    ∧ (node_build (ID.new 2 2 1) 2).srcs
      = (write_objc_files (ID.new 2 2 1) 2).map Prod.fst
    ∧ applyWrites (handle_node (ID.new 2 2 1) 2) (hdr_name (ID.new 2 2 1) (1 + 1))
      = some (.text (hdr_lines (ID.new 2 2 1) (1 + 1)))
    ∧ applyWrites (handle_node (ID.new 2 2 1) 2) (src_name (ID.new 2 2 1) (1 + 1))
      = some (.text (src_lines (ID.new 2 2 1) (1 + 1)))
    ∧ hdr_lines (ID.new 2 2 1) (1 + 1)
      = ("@import Foundation;"
          :: (ID.new 2 2 1).children.map (fun c => "@import " ++ c.lib_name ++ ";"))
        ++ ["@interface " ++ (ID.new 2 2 1).lib_name ++ "_Hdr" ++ toString (1 + 1)
              ++ "_Class : NSObject",
            "@end"]
    ∧ src_lines (ID.new 2 2 1) (1 + 1)
      = ["#include \"" ++ (ID.new 2 2 1).lib_name ++ "/" ++ (ID.new 2 2 1).lib_name
            ++ "_Hdr" ++ toString (1 + 1) ++ ".h\"",
         "@implementation " ++ (ID.new 2 2 1).lib_name ++ "_Hdr" ++ toString (1 + 1)
            ++ "_Class",
         "@end"]
    ∧ (∀ name, (applyWrites (handle_node (ID.new 2 2 1) 2) name).isSome
        ↔ name = "BUILD.bazel"
          ∨ ∃ j2, j2 < 2 ∧ (name = hdr_name (ID.new 2 2 1) (j2 + 1)
              ∨ name = src_name (ID.new 2 2 1) (j2 + 1)))) :=
  ⟨by omega, by omega, by omega, by omega,
    node_emission_content 2 2 1 2 1 (by omega) (by omega) (by omega) (by omega)⟩

theorem child_declaration_resolves_at_successor_witness :
    2 ≤ 2 ∧ 1 ≤ 1 ∧ 0 < 2 ∧ (ID.new 2 2 1).parents.length < 2 ∧
    (((ID.new 2 2 1).children.map ID.lib_path)[0]?
      = some ((ID.new 2 2 (1 * 2 + 0 + 1)).lib_path)
    ∧ (ID.new 2 2 (1 * 2 + 0 + 1)).package_relative_index
      = 2 * ((ID.new 2 2 1).package_relative_index - 1) + 0 + 1
    ∧ ((ID.new 2 2 1).children.map ID.id)[0]? = some (1 * 2 + 0)) :=
  ⟨by omega, by omega, by omega, by decide,
    child_declaration_resolves_at_successor 2 2 1 0 (by omega) (by omega) (by omega) (by decide)⟩

end GenBazel
